import Mathlib

/-!
Verification of the country-database build pipeline (`build.py`).

The pipeline's core is shallowly embedded here:

* Python dicts become association lists `Dict α := List (String × α)`
  with the operations `dlookup` (`d[k]`), `dinsert` (`d[k] = v`) and
  `derase` (`del d[k]`); the list order stands in for the dict's
  iteration order, and `dinsert` replaces in place so that a dict never
  holds two entries for one key when built from a key-unique source.
* Country records become the structure `Record`; fields that a record
  may lack in Python (`iso2`, `idc`, `region_a`..`region_d`) are
  `Option String`, with `none` meaning the key is absent from the dict.
* Code that can raise an uncaught exception (`_split_numbers`, and
  `map_numbers` which calls it) returns `Option`, `none` marking the
  raise that aborts the pipeline.
* `str.upper()` is modelled by `upcase` (character-wise `Char.toUpper`,
  exact on the ASCII names appearing in the claims),
  `str.replace('+','')`/`str.strip()`/`str.split(' ')` by
  `stripTokens`, and `str.find(sub) >= 0` by `strContains`.

The three `download_*` functions are external source adapters (network
fetch and HTML scraping); the core functions receive their results as
inputs, which is how `reindex`, `blend_un_wad`, `_split_numbers`,
`map_numbers` and `make_dataset` are embedded below.
-/

/-- A country record; `none` models a key that is absent from the
underlying Python dict. -/
structure Record where
  iso2 : Option String
  iso3 : String
  number : String
  name : String
  idc : Option String
  region_a : Option String
  region_b : Option String
  region_c : Option String
  region_d : Option String
deriving DecidableEq

/-- A Python dict with string keys, as an association list in iteration
order. -/
abbrev Dict (α : Type) := List (String × α)

/-- `d[k]` as a total function: `some v` when the key is present. -/
def dlookup {α : Type} (k : String) : Dict α → Option α
  | [] => none
  | (k', v) :: d => if k' = k then some v else dlookup k d

/-- `d[k] = v`: replace the entry in place when the key is present,
append it otherwise. -/
def dinsert {α : Type} (k : String) (v : α) : Dict α → Dict α
  | [] => [(k, v)]
  | (k', v') :: d => if k' = k then (k, v) :: d else (k', v') :: dinsert k v d

/-- `del d[k]`: drop the first entry for the key. -/
def derase {α : Type} (k : String) : Dict α → Dict α
  | [] => []
  | (k', v') :: d => if k' = k then d else (k', v') :: derase k d

/-- `d.keys()`. -/
def dkeys {α : Type} (d : Dict α) : List String := d.map Prod.fst

/-- A genuine Python dict never holds a key twice. -/
def NodupKeys {α : Type} (d : Dict α) : Prop := (dkeys d).Nodup

/-- `str.upper()` (character-wise; exact on ASCII). -/
def upcase (s : String) : String := ⟨s.data.map Char.toUpper⟩

/-- `reindex(dataset, key)` from `build.py`: re-key a dict of records on
the value of one field (the field access `data[key]` becomes the getter
`f`), last write winning on duplicate field values. -/
def reindex {α : Type} (dataset : Dict α) (f : α → String) : Dict α :=
  dataset.foldl (fun acc kv => dinsert (f kv.2) kv.2 acc) []

/-- The primary-record merge of step 1 of the Blender: copy the
primary's number and uppercased name onto the broad record. -/
def mergeRec (data undata : Record) : Record :=
  { data with number := undata.number, name := upcase undata.name }

/-- The fallback re-key of step 2 of the Blender: adopt the primary's
ISO3 and uppercased name. -/
def fbRec (data undata : Record) : Record :=
  { data with iso3 := undata.iso3, name := upcase undata.name }

/-- The verbatim insertion of a primary record missing from the blended
set: `iso2` defaulted to the empty string, name uppercased. -/
def missRec (r : Record) : Record :=
  { r with iso2 := some "", name := upcase r.name }

/-- State threaded through `blend_un_wad`: the blended dict under
construction and the audit list of patched records. -/
structure BlendState where
  newdata : Dict Record
  patched : List Record
deriving DecidableEq

/-- One iteration of the main loop of `blend_un_wad` over a snapshot
item `(iso3, data)` of the broad (World Atlas) dict: merge the primary
(UN) record under the same ISO3 when it exists, otherwise attempt the
fallback join on the ISO number via `isonum`, otherwise keep the record;
the trailing `newdata[iso3] = data` of the loop body is the outermost
`dinsert`. -/
def blendStep (und isonum : Dict Record) (st : BlendState) (item : String × Record) :
    BlendState :=
  match dlookup item.1 und with
  | some undata =>
    { newdata := dinsert item.1 (mergeRec item.2 undata) st.newdata,
      patched :=
        if item.2.number ≠ undata.number ∨ item.2.name ≠ upcase undata.name then
          st.patched ++ [mergeRec item.2 undata]
        else st.patched }
  | none =>
    match dlookup item.2.number isonum with
    | some undata =>
      { newdata := dinsert undata.iso3 (fbRec item.2 undata)
          (derase item.1 (dinsert undata.iso3 (fbRec item.2 undata) st.newdata)),
        patched := st.patched ++ [fbRec item.2 undata] }
    | none =>
      { newdata := dinsert item.1 item.2 st.newdata, patched := st.patched }

/-- One iteration of the trailing loop of `blend_un_wad`, inserting a
primary record whose ISO3 is missing from the blended set, with `iso2`
defaulted to the empty string and the name uppercased. -/
def missingStep (st : BlendState) (kv : String × Record) : BlendState :=
  { newdata := dinsert kv.1 (missRec kv.2) st.newdata,
    patched := st.patched ++ [missRec kv.2] }

/-- The main loop of `blend_un_wad`: it iterates over the snapshot
`newdata.items()` taken from `newdata = wad.copy()`, so it folds over
`wad` itself, starting from `newdata = wad.copy()` and `patched = []`,
with `isonum = reindex(und, 'number')`. -/
def blendLoop (und wad : Dict Record) : BlendState :=
  wad.foldl (blendStep und (reindex und Record.number)) { newdata := wad, patched := [] }

/-- The trailing loop of `blend_un_wad` over
`set(und.keys()) - set(newdata.keys())`: the set difference becomes the
filter of `und` on keys absent from the main loop's result. -/
def blendMissing (und : Dict Record) (st : BlendState) : BlendState :=
  (und.filter (fun kv => (dlookup kv.1 st.newdata).isNone)).foldl missingStep st

/-- `blend_un_wad(und, wad)`: blend the primary (UN) and broad
(World Atlas) dicts, returning the blended dict and the patched list. -/
def blend_un_wad (und wad : Dict Record) : Dict Record × List Record :=
  ((blendMissing und (blendLoop und wad)).newdata,
   (blendMissing und (blendLoop und wad)).patched)

/-- The result dict of `_split_numbers`: `idc` is always set; a region
field is `some` exactly when the corresponding key was stored. -/
structure SplitResult where
  idc : String
  region_a : Option String
  region_b : Option String
  region_c : Option String
  region_d : Option String
deriving DecidableEq

/-- Python `s.split(sep)` for a one-character separator, on character
lists: always returns at least one (possibly empty) piece. -/
def splitChar (sep : Char) : List Char → List (List Char)
  | [] => [[]]
  | c :: rest =>
    match splitChar sep rest with
    | [] => [[c]]
    | t :: ts => if c = sep then [] :: t :: ts else (c :: t) :: ts

/-- Python `s.strip()` on character lists. -/
def stripWs (cs : List Char) : List Char :=
  ((cs.dropWhile Char.isWhitespace).reverse.dropWhile Char.isWhitespace).reverse

/-- `x.replace('+', '').strip().split(' ')` from `_split_numbers`. -/
def stripTokens (x : String) : List String :=
  (splitChar ' ' (stripWs (x.data.filter (fun c => c != '+')))).map fun cs => ⟨cs⟩

/-- Evaluate an option-valued function over a list, failing as soon as
one element fails (the first raised exception aborts the Python list
comprehension). -/
def mapOpt {α β : Type} (f : α → Option β) : List α → Option (List β)
  | [] => some []
  | a :: l =>
    match f a, mapOpt f l with
    | some b, some bs => some (b :: bs)
    | _, _ => none

/-- `_split_numbers(numbers)`.  `none` models an uncaught exception:
`numbers[0]` on an empty list, `x.pop(1)` on an entry without a second
token (only reached when the first entry has one), and
`regions.pop(0)` on the fifth region code. -/
def splitNumbers (numbers : List String) : Option SplitResult :=
  match numbers.map stripTokens with
  | [] => none
  | first :: restToks =>
    match first with
    | [] => none
    | idc :: _ =>
      if first.length > 1 then
        match mapOpt (fun t => t[1]?) (first :: restToks) with
        | none => none
        | some regionCodes =>
          if regionCodes.length > 4 then none
          else some { idc := idc, region_a := regionCodes[0]?, region_b := regionCodes[1]?,
                      region_c := regionCodes[2]?, region_d := regionCodes[3]? }
      else
        some { idc := idc, region_a := none, region_b := none,
               region_c := none, region_d := none }

/-- The static Wikipedia-name → UN-name correction table
`COUNTRY_MAPPINGS`. -/
def COUNTRY_MAPPINGS : Dict String :=
  [("UNITED STATES", "UNITED STATES OF AMERICA"),
   ("SAINT MARTIN (FRANCE)", "SAINT-MARTIN (FRENCH PART)"),
   ("SOUTH GEORGIA AND THE SOUTH SANDWICH ISLANDS", "SOUTH GEORGIA AND SOUTH S.S."),
   ("CARIBBEAN NETHERLANDS", "NETHERLANDS ANTILLES"),
   ("LAOS", "LAO PEOPLE'S DEMOCRATIC REPUBLIC"),
   ("BURMA", "MYANMAR"),
   ("MICRONESIA, FEDERATED STATES OF", "MICRONESIA (FEDERATED STATES OF)"),
   ("KOREA, NORTH", "DEMOCRATIC PEOPLE'S REPUBLIC OF KOREA"),
   ("KOREA, SOUTH", "REPUBLIC OF KOREA"),
   ("CONGO, DEMOCRATIC REPUBLIC OF THE (ZAIRE)", "DEMOCRATIC REPUBLIC OF THE CONGO"),
   ("US VIRGIN ISLANDS", "UNITED STATES VIRGIN ISLANDS"),
   ("MACAU", "CHINA, MACAO SPECIAL ADMINISTRATIVE REGION"),
   ("FAROE ISLANDS", "FAEROE ISLANDS"),
   ("EAST TIMOR", "TIMOR-LESTE"),
   ("PALESTINIAN TERRITORIES", "STATE OF PALESTINE"),
   ("VATICAN CITY STATE (HOLY SEE)", "HOLY SEE (VATICAN CITY STATE)"),
   ("SAINT BARTHÉLEMY", "SAINT-BARTHÉLEMY"),
   ("SINT MAARTEN (NETHERLANDS)", "SINT MAARTEN (DUTCH PART)"),
   ("SÃO TOMÉ AND PRÍNCIPE", "SAO TOME AND PRINCIPE"),
   ("SINT EUSTATIUS", "BONAIRE, SAINT EUSTATIUS AND SABA")]

/-- The alias substitution at the top of the `map_numbers` loop body. -/
def aliasName (c : String) : String :=
  match dlookup c COUNTRY_MAPPINGS with
  | some c' => c'
  | none => c

/-- `needle` occurs in `hay` as a contiguous run (`hay.find(needle) >= 0`). -/
def containsSub (needle : List Char) : List Char → Bool
  | [] => needle.isEmpty
  | c :: t => needle.isPrefixOf (c :: t) || containsSub needle t

/-- Python `hay.find(needle) >= 0`. -/
def strContains (hay needle : String) : Bool := containsSub needle.data hay.data

/-- `byname = reindex(data, 'name')` of `map_numbers`, with each record
represented by its key in the blended dict: Python's `byname` holds
shared references into `data`, so a mutation through `byname` is a
mutation of the record stored under that key. -/
def indexByName (blended : Dict Record) : Dict String :=
  blended.foldl (fun acc kv => dinsert kv.2.name kv.1 acc) []

/-- `data.update(_split_numbers(...))`: `idc` is always overwritten; a
region field is overwritten only when the corresponding key is present
in the update dict. -/
def applySplit (r : Record) (s : SplitResult) : Record :=
  { r with idc := some s.idc,
           region_a := match s.region_a with | some v => some v | none => r.region_a,
           region_b := match s.region_b with | some v => some v | none => r.region_b,
           region_c := match s.region_c with | some v => some v | none => r.region_c,
           region_d := match s.region_d with | some v => some v | none => r.region_d }

/-- Mutate in place the blended record stored under `key`. -/
def updAt (blended : Dict Record) (key : String) (s : SplitResult) : Dict Record :=
  blended.map fun kv => if kv.1 = key then (kv.1, applySplit kv.2 s) else kv

/-- One iteration of the `map_numbers` loop over a `(country, numbers)`
pair of the Wikipedia dict: alias substitution, exact name lookup with
the Vatican dialing-code override, and on a miss the substring search
accepting a single candidate; `none` is an exception escaping from
`_split_numbers`. -/
def mapNumbersStep (byname : Dict String) (blended : Dict Record)
    (pair : String × List String) : Option (Dict Record) :=
  match dlookup (aliasName pair.1) byname with
  | some key =>
    Option.map (updAt blended key)
      (splitNumbers (if aliasName pair.1 = "HOLY SEE (VATICAN CITY STATE)" then ["+39 066"]
                     else pair.2))
  | none =>
    match (dkeys byname).filter (fun c => strContains c (aliasName pair.1)) with
    | [only] =>
      match dlookup only byname with
      | some key => Option.map (updAt blended key) (splitNumbers pair.2)
      | none => some blended
    | _ => some blended

/-- Fold an option-valued step over a list, stopping at the first
`none` (the first uncaught exception aborts the loop). -/
def foldOpt {β γ : Type} (f : β → γ → Option β) : β → List γ → Option β
  | b, [] => some b
  | b, x :: l =>
    match f b x with
    | none => none
    | some b' => foldOpt f b' l

/-- `map_numbers(data, country_codes)`: `byname` is computed once, then
the loop runs over the pairs of `country_codes`; the returned dict is
the mutated `data` (`none` models the raise that aborts the run). -/
def mapNumbers (blended : Dict Record) (country_codes : Dict (List String)) :
    Option (Dict Record) :=
  foldOpt (mapNumbersStep (indexByName blended)) blended country_codes

/-- The core data flow of `make_dataset`: the three downloads are
external source adapters passed as inputs, serialization and verbose
reporting are I/O.  With `ignore` set, entries whose `idc` is absent or
empty are deleted before output. -/
def make_dataset (und wad : Dict Record) (country_codes : Dict (List String))
    (ignore : Bool) : Option (Dict Record) :=
  match mapNumbers (blend_un_wad und wad).1 country_codes with
  | none => none
  | some blend =>
    some (if ignore then blend.filter (fun kv => kv.2.idc.getD "" != "") else blend)

/-- Pointwise frame relation for `map_numbers`: the dict key and the
`iso3`, `iso2`, `number` and `name` fields are unchanged (the remaining
fields — `idc` and `region_a`..`region_d` — are the only ones the Code
Augmenter may touch). -/
def frameRel (p q : String × Record) : Prop :=
  p.1 = q.1 ∧ p.2.iso3 = q.2.iso3 ∧ p.2.iso2 = q.2.iso2 ∧
  p.2.number = q.2.number ∧ p.2.name = q.2.name

/-- Records of a dict are stored under their own ISO3: the documented
shape of the primary and broad source dicts. -/
def KeyedByIso3 (d : Dict Record) : Prop := ∀ p ∈ d, p.2.iso3 = p.1

/-- The ISO numbers of a dict's records are pairwise distinct. -/
def NumbersNodup (d : Dict Record) : Prop := (d.map (fun p => p.2.number)).Nodup

/-! ### Dictionary lemmas -/

theorem dkeys_nil {α : Type} : dkeys ([] : Dict α) = [] := rfl

theorem dkeys_cons {α : Type} (p : String × α) (d : Dict α) :
    dkeys (p :: d) = p.1 :: dkeys d := rfl

theorem dlookup_dinsert_self {α : Type} (k : String) (v : α) (d : Dict α) :
    dlookup k (dinsert k v d) = some v := by
  induction d with
  | nil => simp [dlookup, dinsert]
  | cons p d ih =>
    obtain ⟨k', v'⟩ := p
    by_cases h : k' = k
    · simp [dlookup, dinsert, h]
    · simp [dlookup, dinsert, h, ih]

theorem dlookup_dinsert_ne {α : Type} {k k' : String} (v : α) (d : Dict α)
    (h : k' ≠ k) : dlookup k' (dinsert k v d) = dlookup k' d := by
  have h' : ¬(k = k') := fun hh => h hh.symm
  induction d with
  | nil => simp [dlookup, dinsert, h']
  | cons p d ih =>
    obtain ⟨k'', v''⟩ := p
    by_cases h2 : k'' = k
    · subst h2
      simp [dlookup, dinsert, h']
    · simp only [dinsert, if_neg h2, dlookup]
      split
      · rfl
      · exact ih

theorem dlookup_derase_ne {α : Type} {k k' : String} (d : Dict α)
    (h : k' ≠ k) : dlookup k' (derase k d) = dlookup k' d := by
  induction d with
  | nil => simp [derase]
  | cons p d ih =>
    obtain ⟨k'', v''⟩ := p
    by_cases h2 : k'' = k
    · have h' : ¬(k'' = k') := fun hh => h (hh.symm.trans h2)
      simp only [derase, if_pos h2, dlookup, if_neg h']
    · simp only [derase, if_neg h2, dlookup]
      split
      · rfl
      · exact ih

theorem dlookup_derase_none {α : Type} {k : String} (k' : String) {d : Dict α}
    (h : dlookup k d = none) : dlookup k (derase k' d) = none := by
  induction d with
  | nil => simpa [derase] using h
  | cons p d ih =>
    obtain ⟨k'', v''⟩ := p
    by_cases h2 : k'' = k
    · simp [dlookup, h2] at h
    · simp only [dlookup, if_neg h2] at h
      by_cases h3 : k'' = k'
      · simp only [derase, if_pos h3]
        exact h
      · simp only [derase, if_neg h3, dlookup, if_neg h2]
        exact ih h

theorem mem_keys_of_mem {α : Type} {p : String × α} {d : Dict α}
    (h : p ∈ d) : p.1 ∈ dkeys d := List.mem_map_of_mem Prod.fst h

theorem dlookup_isSome_iff {α : Type} {k : String} {d : Dict α} :
    (dlookup k d).isSome ↔ k ∈ dkeys d := by
  induction d with
  | nil => simp [dlookup, dkeys]
  | cons p d ih =>
    obtain ⟨k', v'⟩ := p
    by_cases h : k' = k
    · subst h
      simp [dlookup, dkeys_cons]
    · have h' : ¬(k = k') := fun hh => h hh.symm
      simp only [dlookup, if_neg h, dkeys_cons, List.mem_cons]
      rw [ih]
      simp [h']

theorem dlookup_eq_none_iff {α : Type} {k : String} {d : Dict α} :
    dlookup k d = none ↔ k ∉ dkeys d := by
  rw [← dlookup_isSome_iff]
  cases dlookup k d <;> simp

theorem mem_of_dlookup {α : Type} {k : String} {v : α} {d : Dict α}
    (h : dlookup k d = some v) : (k, v) ∈ d := by
  induction d with
  | nil => simp [dlookup] at h
  | cons p d ih =>
    obtain ⟨k', v'⟩ := p
    by_cases h2 : k' = k
    · subst h2
      have h3 : v' = v := by simpa [dlookup] using h
      subst h3
      exact List.mem_cons_self _ _
    · simp only [dlookup, if_neg h2] at h
      exact List.mem_cons_of_mem _ (ih h)

theorem dlookup_of_mem_nodup {α : Type} {k : String} {v : α} {d : Dict α}
    (hd : NodupKeys d) (h : (k, v) ∈ d) : dlookup k d = some v := by
  induction d with
  | nil => simp at h
  | cons p d ih =>
    obtain ⟨k', v'⟩ := p
    have hd' : k' ∉ dkeys d ∧ (dkeys d).Nodup := by
      simpa [NodupKeys, dkeys_cons] using hd
    rcases List.mem_cons.mp h with h1 | h1
    · injection h1 with hk hv
      subst hk
      subst hv
      simp [dlookup]
    · have hne : k' ≠ k := by
        intro hh
        apply hd'.1
        rw [hh]
        exact mem_keys_of_mem h1
      simp only [dlookup, if_neg hne]
      exact ih hd'.2 h1

theorem mem_dinsert {α : Type} {p : String × α} {k : String} {v : α} {d : Dict α}
    (h : p ∈ dinsert k v d) : p = (k, v) ∨ p ∈ d := by
  induction d with
  | nil =>
    simp only [dinsert] at h
    rcases List.mem_cons.mp h with h1 | h1
    · exact Or.inl h1
    · simp at h1
  | cons q d ih =>
    obtain ⟨k', v'⟩ := q
    by_cases h2 : k' = k
    · simp only [dinsert, if_pos h2] at h
      rcases List.mem_cons.mp h with h3 | h3
      · exact Or.inl h3
      · exact Or.inr (List.mem_cons_of_mem _ h3)
    · simp only [dinsert, if_neg h2] at h
      rcases List.mem_cons.mp h with h3 | h3
      · exact Or.inr (List.mem_cons.mpr (Or.inl h3))
      · rcases ih h3 with h4 | h4
        · exact Or.inl h4
        · exact Or.inr (List.mem_cons_of_mem _ h4)

theorem mem_derase {α : Type} {p : String × α} {k : String} {d : Dict α}
    (h : p ∈ derase k d) : p ∈ d := by
  induction d with
  | nil => simp [derase] at h
  | cons q d ih =>
    obtain ⟨k', v'⟩ := q
    by_cases h2 : k' = k
    · simp only [derase, if_pos h2] at h
      exact List.mem_cons_of_mem _ h
    · simp only [derase, if_neg h2] at h
      rcases List.mem_cons.mp h with h3 | h3
      · exact List.mem_cons.mpr (Or.inl h3)
      · exact List.mem_cons_of_mem _ (ih h3)

theorem dkeys_dinsert_of_mem {α : Type} {k : String} (v : α) {d : Dict α}
    (h : k ∈ dkeys d) : dkeys (dinsert k v d) = dkeys d := by
  induction d with
  | nil => simp [dkeys] at h
  | cons q d ih =>
    obtain ⟨k', v'⟩ := q
    by_cases h2 : k' = k
    · subst h2
      simp [dinsert, dkeys_cons]
    · have h3 : k ∈ dkeys d := by
        rcases List.mem_cons.mp (by simpa [dkeys_cons] using h) with h4 | h4
        · exact absurd h4.symm h2
        · exact h4
      simp only [dinsert, if_neg h2, dkeys_cons]
      rw [ih h3]

theorem dkeys_dinsert_of_not_mem {α : Type} {k : String} (v : α) {d : Dict α}
    (h : k ∉ dkeys d) : dkeys (dinsert k v d) = dkeys d ++ [k] := by
  induction d with
  | nil => simp [dinsert, dkeys]
  | cons q d ih =>
    obtain ⟨k', v'⟩ := q
    have h' : ¬(k = k') ∧ k ∉ dkeys d := by
      constructor
      · intro hh
        exact h (by simp [dkeys_cons, hh])
      · intro hh
        exact h (by simp [dkeys_cons, hh])
    have h2 : ¬(k' = k) := fun hh => h'.1 hh.symm
    simp only [dinsert, if_neg h2, dkeys_cons]
    rw [ih h'.2]
    simp

theorem mem_dkeys_dinsert {α : Type} {k k' : String} (v : α) (d : Dict α)
    (h : k' ∈ dkeys d) : k' ∈ dkeys (dinsert k v d) := by
  by_cases h2 : k ∈ dkeys d
  · rw [dkeys_dinsert_of_mem v h2]
    exact h
  · rw [dkeys_dinsert_of_not_mem v h2]
    exact List.mem_append_left _ h

theorem mem_dkeys_dinsert_self {α : Type} (k : String) (v : α) (d : Dict α) :
    k ∈ dkeys (dinsert k v d) :=
  dlookup_isSome_iff.mp (by rw [dlookup_dinsert_self]; rfl)

theorem nodupKeys_dinsert {α : Type} (k : String) (v : α) {d : Dict α}
    (h : NodupKeys d) : NodupKeys (dinsert k v d) := by
  by_cases h2 : k ∈ dkeys d
  · unfold NodupKeys
    rw [dkeys_dinsert_of_mem v h2]
    exact h
  · unfold NodupKeys
    rw [dkeys_dinsert_of_not_mem v h2]
    refine List.nodup_append.mpr ⟨h, List.nodup_singleton _, ?_⟩
    intro a ha hb
    rcases List.mem_singleton.mp hb with rfl
    exact h2 ha

theorem dkeys_derase_sublist {α : Type} (k : String) (d : Dict α) :
    (dkeys (derase k d)).Sublist (dkeys d) := by
  induction d with
  | nil => simp [derase]
  | cons q d ih =>
    obtain ⟨k', v'⟩ := q
    by_cases h2 : k' = k
    · simp only [derase, if_pos h2, dkeys_cons]
      exact List.sublist_cons_self _ _
    · simp only [derase, if_neg h2, dkeys_cons]
      exact List.Sublist.cons₂ _ ih

theorem nodupKeys_derase {α : Type} (k : String) {d : Dict α}
    (h : NodupKeys d) : NodupKeys (derase k d) :=
  List.Nodup.sublist (dkeys_derase_sublist k d) h

theorem dlookup_derase_self {α : Type} {k : String} {d : Dict α}
    (h : NodupKeys d) : dlookup k (derase k d) = none := by
  induction d with
  | nil => simp [derase, dlookup]
  | cons q d ih =>
    obtain ⟨k', v'⟩ := q
    have h' : k' ∉ dkeys d ∧ (dkeys d).Nodup := by
      simpa [NodupKeys, dkeys_cons] using h
    by_cases h2 : k' = k
    · subst h2
      simp only [derase, if_pos rfl]
      exact dlookup_eq_none_iff.mpr h'.1
    · simp only [derase, if_neg h2, dlookup, if_neg h2]
      exact ih h'.2

theorem dlookup_split {α : Type} {k : String} {v : α} {d : Dict α}
    (h : dlookup k d = some v) :
    ∃ d1 d2, d = d1 ++ (k, v) :: d2 ∧ k ∉ dkeys d1 := by
  induction d with
  | nil => simp [dlookup] at h
  | cons q d ih =>
    obtain ⟨k', v'⟩ := q
    by_cases h2 : k' = k
    · subst h2
      have h3 : v' = v := by simpa [dlookup] using h
      subst h3
      exact ⟨[], d, by simp, by simp [dkeys]⟩
    · simp only [dlookup, if_neg h2] at h
      obtain ⟨d1, d2, hd, hk⟩ := ih h
      refine ⟨(k', v') :: d1, d2, by simp [hd], ?_⟩
      intro hh
      rcases List.mem_cons.mp (by simpa [dkeys_cons] using hh) with h3 | h3
      · exact h2 h3.symm
      · exact hk h3

/-! ### Fold and reindex lemmas -/

theorem foldl_inv {β γ : Type} (f : β → γ → β) (P : β → Prop) :
    ∀ (l : List γ) (b : β), (∀ b' x, x ∈ l → P b' → P (f b' x)) → P b →
      P (l.foldl f b) := by
  intro l
  induction l with
  | nil => intro b _ hb; exact hb
  | cons x l ih =>
    intro b hstep hb
    exact ih _ (fun b' y hy => hstep b' y (List.mem_cons_of_mem _ hy))
      (hstep b x (List.mem_cons_self _ _) hb)

theorem dlookup_reindex_aux {α : Type} (f : α → String) :
    ∀ (l : Dict α) (acc : Dict α) (x : String) (v : α),
      dlookup x (l.foldl (fun a p => dinsert (f p.2) p.2 a) acc) = some v →
      dlookup x acc = some v ∨ (f v = x ∧ ∃ k, (k, v) ∈ l) := by
  intro l
  induction l with
  | nil => intro acc x v h; exact Or.inl h
  | cons p l ih =>
    intro acc x v h
    obtain ⟨k0, r0⟩ := p
    rcases ih _ x v h with h1 | h1
    · by_cases h2 : f r0 = x
      · subst h2
        rw [dlookup_dinsert_self] at h1
        injection h1 with h1
        subst h1
        exact Or.inr ⟨rfl, k0, List.mem_cons_self _ _⟩
      · rw [dlookup_dinsert_ne _ _ (fun hh => h2 hh.symm)] at h1
        exact Or.inl h1
    · exact Or.inr ⟨h1.1, h1.2.choose, List.mem_cons_of_mem _ h1.2.choose_spec⟩

/-- A value found in `reindex dataset f` sits at key `f v` and comes
from the input dict. -/
theorem dlookup_reindex_mem {α : Type} {f : α → String} {dataset : Dict α}
    {x : String} {v : α} (h : dlookup x (reindex dataset f) = some v) :
    f v = x ∧ ∃ k, (k, v) ∈ dataset := by
  rcases dlookup_reindex_aux f dataset [] x v h with h1 | h1
  · simp [dlookup] at h1
  · exact h1

theorem reindex_fresh_aux {α : Type} (f : α → String) :
    ∀ (l : Dict α) (acc : Dict α),
      (l.map (fun p => f p.2)).Nodup →
      (∀ p ∈ l, dlookup (f p.2) acc = none) →
      (l.foldl (fun a p => dinsert (f p.2) p.2 a) acc).length = acc.length + l.length ∧
      (∀ k v, dlookup k acc = some v → k ∉ l.map (fun p => f p.2) →
        dlookup k (l.foldl (fun a p => dinsert (f p.2) p.2 a) acc) = some v) ∧
      (∀ p ∈ l, dlookup (f p.2)
        (l.foldl (fun a p => dinsert (f p.2) p.2 a) acc) = some p.2) := by
  intro l
  induction l with
  | nil => intro acc _ _; exact ⟨rfl, fun k v h _ => h, fun p hp => absurd hp (by simp)⟩
  | cons q l ih =>
    intro acc hnd hfresh
    have hq : dlookup (f q.2) acc = none := hfresh q (List.mem_cons_self _ _)
    have hlen : (dinsert (f q.2) q.2 acc).length = acc.length + 1 := by
      have : dkeys (dinsert (f q.2) q.2 acc) = dkeys acc ++ [f q.2] :=
        dkeys_dinsert_of_not_mem _ (dlookup_eq_none_iff.mp hq)
      have h1 : (dkeys (dinsert (f q.2) q.2 acc)).length = (dkeys acc).length + 1 := by
        rw [this]; simp
      simpa [dkeys] using h1
    have hnd' : (l.map (fun p => f p.2)).Nodup := (List.nodup_cons.mp hnd).2
    have hqn : f q.2 ∉ l.map (fun p => f p.2) := (List.nodup_cons.mp hnd).1
    have hfresh' : ∀ p ∈ l, dlookup (f p.2) (dinsert (f q.2) q.2 acc) = none := by
      intro p hp
      have hne : f p.2 ≠ f q.2 := by
        intro hh
        exact hqn (hh ▸ List.mem_map_of_mem (fun p => f p.2) hp)
      rw [dlookup_dinsert_ne _ _ hne]
      exact hfresh p (List.mem_cons_of_mem _ hp)
    obtain ⟨ih1, ih2, ih3⟩ := ih (dinsert (f q.2) q.2 acc) hnd' hfresh'
    refine ⟨?_, ?_, ?_⟩
    · simp only [List.foldl_cons]
      rw [ih1, hlen]
      simp [Nat.add_assoc, Nat.add_comm 1]
    · intro k v hk hkn
      simp only [List.foldl_cons]
      have hne : k ≠ f q.2 := by
        intro hh
        exact hkn (by simp [hh])
      apply ih2
      · rw [dlookup_dinsert_ne _ _ hne]
        exact hk
      · intro hh
        exact hkn (by simp [hh])
    · intro p hp
      simp only [List.foldl_cons]
      rcases List.mem_cons.mp hp with h1 | h1
      · subst h1
        apply ih2
        · exact dlookup_dinsert_self _ _ _
        · exact hqn
      · exact ih3 p h1

/-- `reindex` on a dict whose records take pairwise distinct values on
the chosen field: same size, and every record is reachable under its
field value. -/
theorem reindex_of_nodup_field {α : Type} {dataset : Dict α} {f : α → String}
    (h : (dataset.map (fun p => f p.2)).Nodup) :
    (reindex dataset f).length = dataset.length ∧
    ∀ p ∈ dataset, dlookup (f p.2) (reindex dataset f) = some p.2 := by
  obtain ⟨h1, _, h3⟩ := reindex_fresh_aux f dataset [] h (fun p _ => rfl)
  exact ⟨by simpa [reindex] using h1, fun p hp => h3 p hp⟩

/-! ### Blender step equations and invariants -/

theorem blendStep_hit {und : Dict Record} (isonum : Dict Record)
    {item : String × Record} {undata : Record} (st : BlendState)
    (h : dlookup item.1 und = some undata) :
    blendStep und isonum st item =
      { newdata := dinsert item.1 (mergeRec item.2 undata) st.newdata,
        patched :=
          if item.2.number ≠ undata.number ∨ item.2.name ≠ upcase undata.name then
            st.patched ++ [mergeRec item.2 undata]
          else st.patched } := by
  simp [blendStep, h]

theorem blendStep_fb {und isonum : Dict Record} {item : String × Record}
    {undata : Record} (st : BlendState) (h1 : dlookup item.1 und = none)
    (h2 : dlookup item.2.number isonum = some undata) :
    blendStep und isonum st item =
      { newdata := dinsert undata.iso3 (fbRec item.2 undata)
          (derase item.1 (dinsert undata.iso3 (fbRec item.2 undata) st.newdata)),
        patched := st.patched ++ [fbRec item.2 undata] } := by
  simp [blendStep, h1, h2]

theorem blendStep_miss {und isonum : Dict Record} {item : String × Record}
    (st : BlendState) (h1 : dlookup item.1 und = none)
    (h2 : dlookup item.2.number isonum = none) :
    blendStep und isonum st item =
      { newdata := dinsert item.1 item.2 st.newdata, patched := st.patched } := by
  simp [blendStep, h1, h2]

theorem mergeRec_self {data undata : Record}
    (hn : data.number = undata.number) (hm : data.name = upcase undata.name) :
    mergeRec data undata = data := by
  unfold mergeRec
  rw [← hn, ← hm]

theorem missingStep_keys_mono {k : String} (st : BlendState) (kv : String × Record)
    (h : k ∈ dkeys st.newdata) : k ∈ dkeys (missingStep st kv).newdata :=
  mem_dkeys_dinsert _ _ h

theorem foldl_missing_keys_mono {k : String} (l : Dict Record) (st : BlendState)
    (h : k ∈ dkeys st.newdata) : k ∈ dkeys ((l.foldl missingStep st).newdata) :=
  foldl_inv missingStep (fun s => k ∈ dkeys s.newdata) l st
    (fun s kv _ hh => missingStep_keys_mono s kv hh) h

theorem foldl_missing_keys_of_mem (l : Dict Record) (st : BlendState)
    {kv : String × Record} (h : kv ∈ l) :
    kv.1 ∈ dkeys ((l.foldl missingStep st).newdata) := by
  induction l generalizing st with
  | nil => simp at h
  | cons q l ih =>
    rcases List.mem_cons.mp h with h1 | h1
    · subst h1
      simp only [List.foldl_cons]
      exact foldl_missing_keys_mono l _ (mem_dkeys_dinsert_self _ _ _)
    · simp only [List.foldl_cons]
      exact ih _ h1

/-- C3: Blender completeness — every ISO3 key present in the primary
dataset appears as a key of the blended output of `blend_un_wad`. -/
theorem C3_blend_completeness (und wad : Dict Record) (k : String)
    (hk : (dlookup k und).isSome) :
    (dlookup k (blend_un_wad und wad).1).isSome := by
  rw [dlookup_isSome_iff] at hk ⊢
  show k ∈ dkeys (blendMissing und (blendLoop und wad)).newdata
  unfold blendMissing
  by_cases hmem : k ∈ dkeys (blendLoop und wad).newdata
  · exact foldl_missing_keys_mono _ _ hmem
  · obtain ⟨p, hp, hpk⟩ := List.mem_map.mp hk
    have hfil : p ∈ und.filter
        (fun kv => (dlookup kv.1 (blendLoop und wad).newdata).isNone) := by
      refine List.mem_filter.mpr ⟨hp, ?_⟩
      rw [hpk]
      rw [dlookup_eq_none_iff.mpr hmem]
      rfl
    have := foldl_missing_keys_of_mem _ (blendLoop und wad) hfil
    rwa [hpk] at this

/-- C3 witness at a concrete pair of datasets. -/
theorem C3_witness :
    (dlookup "TLS"
      (blend_un_wad [("TLS", ⟨none, "TLS", "626", "Timor-Leste", none, none, none, none, none⟩)]
        [("TMP", ⟨some "TP", "TMP", "626", "EAST TIMOR", none, none, none, none, none⟩)]).1).isSome :=
  C3_blend_completeness _ _ "TLS" (by decide)

/-- C8: `reindex` over a dict whose records are pairwise distinct on the
chosen field keeps the number of entries and makes every record
reachable under its field value. -/
theorem C8_reindex_unique (dataset : Dict Record) (f : Record → String)
    (h : (dataset.map (fun p => f p.2)).Nodup) :
    (reindex dataset f).length = dataset.length ∧
    ∀ p ∈ dataset, dlookup (f p.2) (reindex dataset f) = some p.2 :=
  reindex_of_nodup_field h

/-- C8 witness at a concrete dataset, reindexing on the ISO number. -/
theorem C8_witness :
    (reindex [("ABC", (⟨none, "ABC", "004", "Foo", none, none, none, none, none⟩ : Record)),
              ("DEF", ⟨none, "DEF", "005", "Bar", none, none, none, none, none⟩)]
        Record.number).length = 2 ∧
    ∀ p ∈ [("ABC", (⟨none, "ABC", "004", "Foo", none, none, none, none, none⟩ : Record)),
           ("DEF", ⟨none, "DEF", "005", "Bar", none, none, none, none, none⟩)],
      dlookup p.2.number
        (reindex [("ABC", (⟨none, "ABC", "004", "Foo", none, none, none, none, none⟩ : Record)),
                  ("DEF", ⟨none, "DEF", "005", "Bar", none, none, none, none, none⟩)]
          Record.number) = some p.2 :=
  C8_reindex_unique _ Record.number (by decide)

theorem keyed_dinsert {d : Dict Record} {k : String} {v : Record}
    (hd : KeyedByIso3 d) (hv : v.iso3 = k) : KeyedByIso3 (dinsert k v d) := by
  intro p hp
  rcases mem_dinsert hp with h1 | h1
  · rw [h1]
    exact hv
  · exact hd p h1

theorem keyed_derase {d : Dict Record} (k : String)
    (hd : KeyedByIso3 d) : KeyedByIso3 (derase k d) :=
  fun p hp => hd p (mem_derase hp)

theorem blendStep_keyed {und wad : Dict Record} (hwadK : KeyedByIso3 wad)
    (isonum : Dict Record) (st : BlendState) (item : String × Record)
    (hitem : item ∈ wad)
    (h : KeyedByIso3 st.newdata ∧ NodupKeys st.newdata) :
    KeyedByIso3 (blendStep und isonum st item).newdata ∧
      NodupKeys (blendStep und isonum st item).newdata := by
  rcases hu : dlookup item.1 und with _ | undata
  · rcases hn : dlookup item.2.number isonum with _ | undata
    · rw [blendStep_miss st hu hn]
      exact ⟨keyed_dinsert h.1 (hwadK item hitem), nodupKeys_dinsert _ _ h.2⟩
    · rw [blendStep_fb st hu hn]
      refine ⟨keyed_dinsert (keyed_derase _ (keyed_dinsert h.1 rfl)) rfl, ?_⟩
      exact nodupKeys_dinsert _ _ (nodupKeys_derase _ (nodupKeys_dinsert _ _ h.2))
  · rw [blendStep_hit isonum st hu]
    refine ⟨keyed_dinsert h.1 (hwadK item hitem), nodupKeys_dinsert _ _ h.2⟩

theorem keyed_map_iso3 : ∀ {d : Dict Record}, KeyedByIso3 d →
    d.map (fun p => p.2.iso3) = dkeys d := by
  intro d
  induction d with
  | nil => intro _; rfl
  | cons p d ih =>
    intro h
    have h1 : p.2.iso3 = p.1 := h p (List.mem_cons_self _ _)
    have h2 : KeyedByIso3 d := fun q hq => h q (List.mem_cons_of_mem _ hq)
    simp only [List.map_cons, dkeys_cons, h1, ih h2]

/-- C5: in the blended mapping produced by `blend_un_wad` from source
dicts of the documented shape (records stored under their own ISO3,
broad keys distinct), every record's `iso3` equals its dict key, and
hence the `iso3` values of the blended set are pairwise distinct. -/
theorem C5_iso3_is_key (und wad : Dict Record)
    (hundK : KeyedByIso3 und) (hwadK : KeyedByIso3 wad) (hwadN : NodupKeys wad) :
    (∀ p ∈ (blend_un_wad und wad).1, p.2.iso3 = p.1) ∧
    ((blend_un_wad und wad).1.map (fun p => p.2.iso3)).Nodup := by
  have hloop : KeyedByIso3 (blendLoop und wad).newdata ∧
      NodupKeys (blendLoop und wad).newdata := by
    unfold blendLoop
    refine foldl_inv _ (fun st : BlendState => KeyedByIso3 st.newdata ∧ NodupKeys st.newdata)
      wad { newdata := wad, patched := [] }
      (fun st item hitem h => blendStep_keyed hwadK _ st item hitem h) ⟨hwadK, hwadN⟩
  have hmiss : KeyedByIso3 (blendMissing und (blendLoop und wad)).newdata ∧
      NodupKeys (blendMissing und (blendLoop und wad)).newdata := by
    unfold blendMissing
    refine foldl_inv _ (fun st : BlendState => KeyedByIso3 st.newdata ∧ NodupKeys st.newdata)
      _ _ ?_ hloop
    intro st kv hkv h
    have hkv' : kv ∈ und := (List.mem_filter.mp hkv).1
    refine ⟨keyed_dinsert h.1 ?_, nodupKeys_dinsert _ _ h.2⟩
    show kv.2.iso3 = kv.1
    exact hundK kv hkv'
  refine ⟨hmiss.1, ?_⟩
  show (((blendMissing und (blendLoop und wad)).newdata).map (fun p => p.2.iso3)).Nodup
  rw [keyed_map_iso3 hmiss.1]
  exact hmiss.2

/-- C5 witness at a concrete pair of well-formed datasets. -/
theorem C5_witness :
    (∀ p ∈ (blend_un_wad
        [("TLS", ⟨none, "TLS", "626", "Timor-Leste", none, none, none, none, none⟩)]
        [("TMP", ⟨some "TP", "TMP", "626", "EAST TIMOR", none, none, none, none, none⟩),
         ("FRA", ⟨some "FR", "FRA", "250", "FRANCE", none, none, none, none, none⟩)]).1,
      p.2.iso3 = p.1) ∧
    ((blend_un_wad
        [("TLS", ⟨none, "TLS", "626", "Timor-Leste", none, none, none, none, none⟩)]
        [("TMP", ⟨some "TP", "TMP", "626", "EAST TIMOR", none, none, none, none, none⟩),
         ("FRA", ⟨some "FR", "FRA", "250", "FRANCE", none, none, none, none, none⟩)]).1.map
      (fun p => p.2.iso3)).Nodup :=
  C5_iso3_is_key _ _
    (by unfold KeyedByIso3; decide)
    (by unfold KeyedByIso3; decide)
    (by unfold NodupKeys; decide)

/-- C4 as frozen is false: identical singleton primary and broad
datasets, whose single shared ISO3 carries literally equal `number` and
`name` fields, still produce a non-empty patched list — the code
compares the broad name against the uppercased primary name, and
`"Foo"` differs from `"FOO"`. -/
theorem C4_counterexample :
    dlookup "AAA" [("AAA", (⟨some "AA", "AAA", "004", "Foo", none, none, none, none, none⟩ : Record))]
      = some (⟨some "AA", "AAA", "004", "Foo", none, none, none, none, none⟩ : Record) ∧
    (blend_un_wad
      [("AAA", (⟨some "AA", "AAA", "004", "Foo", none, none, none, none, none⟩ : Record))]
      [("AAA", (⟨some "AA", "AAA", "004", "Foo", none, none, none, none, none⟩ : Record))]).2 ≠ [] := by
  constructor
  · decide
  · decide

/-- C4 (amended): the patched list of `blend_un_wad` is empty provided
(a) on every shared ISO3 the broad record already carries the primary's
number and the primary's name uppercased, (b) every primary ISO3 occurs
in the broad dict, and (c) no broad record lacking a primary ISO3 match
has its number in the primary's number index. -/
theorem C4_patched_empty_amended (und wad : Dict Record)
    (hwadN : NodupKeys wad)
    (hagree : ∀ k u w, dlookup k und = some u → dlookup k wad = some w →
      w.number = u.number ∧ w.name = upcase u.name)
    (hcover : ∀ k, (dlookup k und).isSome → (dlookup k wad).isSome)
    (hnofb : ∀ p ∈ wad, dlookup p.1 und = none →
      dlookup p.2.number (reindex und Record.number) = none) :
    (blend_un_wad und wad).2 = [] := by
  have hloop : (blendLoop und wad).patched = [] ∧
      ∀ k, k ∈ dkeys wad → k ∈ dkeys (blendLoop und wad).newdata := by
    unfold blendLoop
    refine foldl_inv _
      (fun st : BlendState => st.patched = [] ∧
        ∀ k, k ∈ dkeys wad → k ∈ dkeys st.newdata)
      wad { newdata := wad, patched := [] } ?_ ⟨rfl, fun _ h => h⟩
    intro st item hitem h
    rcases hu : dlookup item.1 und with _ | u
    · have hn := hnofb item hitem hu
      rw [blendStep_miss st hu hn]
      exact ⟨h.1, fun k hk => mem_dkeys_dinsert _ _ (h.2 k hk)⟩
    · have hw : dlookup item.1 wad = some item.2 := dlookup_of_mem_nodup hwadN hitem
      have hag := hagree item.1 u item.2 hu hw
      rw [blendStep_hit (reindex und Record.number) st hu]
      refine ⟨?_, fun k hk => mem_dkeys_dinsert _ _ (h.2 k hk)⟩
      have hcond : ¬(item.2.number ≠ u.number ∨ item.2.name ≠ upcase u.name) := by
        push_neg
        exact hag
      rw [if_neg hcond]
      exact h.1
  have hfil : und.filter
      (fun kv => (dlookup kv.1 (blendLoop und wad).newdata).isNone) = [] := by
    rw [List.filter_eq_nil_iff]
    intro kv hkv
    have h1 : (dlookup kv.1 und).isSome := dlookup_isSome_iff.mpr (mem_keys_of_mem hkv)
    have h2 : kv.1 ∈ dkeys wad := dlookup_isSome_iff.mp (hcover kv.1 h1)
    have h3 := dlookup_isSome_iff.mpr (hloop.2 kv.1 h2)
    rcases Option.isSome_iff_exists.mp h3 with ⟨v, hv⟩
    simp [hv]
  show (blendMissing und (blendLoop und wad)).patched = []
  unfold blendMissing
  rw [hfil]
  exact hloop.1

/-- C4 witness: concrete datasets meeting the amended side conditions
blend with an empty patched list. -/
theorem C4_witness :
    (blend_un_wad
      [("AAA", (⟨none, "AAA", "004", "FOO", none, none, none, none, none⟩ : Record))]
      [("AAA", (⟨some "AA", "AAA", "004", "FOO", none, none, none, none, none⟩ : Record))]).2 = [] := by
  refine C4_patched_empty_amended _ _ (by unfold NodupKeys; decide) ?_ ?_ ?_
  · intro k u w h1 h2
    by_cases hk : "AAA" = k
    · simp only [dlookup, if_pos hk] at h1 h2
      injection h1 with h1
      injection h2 with h2
      subst h1
      subst h2
      exact ⟨rfl, by decide⟩
    · simp only [dlookup, if_neg hk] at h1
      exact Option.noConfusion h1
  · intro k h
    by_cases hk : "AAA" = k
    · simp only [dlookup, if_pos hk]
      rfl
    · simp only [dlookup, if_neg hk] at h
      simp at h
  · intro p hp
    rw [List.mem_singleton] at hp
    subst hp
    intro h
    exact absurd h (by decide)

/-! ### Blender preservation lemmas -/

theorem fb_lookup {und : Dict Record} (hundK : KeyedByIso3 und) (hundN : NodupKeys und)
    {n : String} {uX : Record}
    (h : dlookup n (reindex und Record.number) = some uX) :
    uX.number = n ∧ dlookup uX.iso3 und = some uX := by
  obtain ⟨h1, k, hk⟩ := dlookup_reindex_mem h
  have h2 : uX.iso3 = k := hundK (k, uX) hk
  refine ⟨h1, ?_⟩
  rw [h2]
  exact dlookup_of_mem_nodup hundN hk

theorem blendStep_patched_mono (und isonum : Dict Record) (st : BlendState)
    (item : String × Record) {r : Record} (h : r ∈ st.patched) :
    r ∈ (blendStep und isonum st item).patched := by
  rcases hu : dlookup item.1 und with _ | u
  · rcases hn : dlookup item.2.number isonum with _ | u
    · rw [blendStep_miss st hu hn]
      exact h
    · rw [blendStep_fb st hu hn]
      exact List.mem_append_left _ h
  · rw [blendStep_hit isonum st hu]
    by_cases hc : item.2.number ≠ u.number ∨ item.2.name ≠ upcase u.name
    · simp only [if_pos hc]
      exact List.mem_append_left _ h
    · simp only [if_neg hc]
      exact h

theorem blendStep_nodup (und isonum : Dict Record) (st : BlendState)
    (item : String × Record) (h : NodupKeys st.newdata) :
    NodupKeys (blendStep und isonum st item).newdata := by
  rcases hu : dlookup item.1 und with _ | u
  · rcases hn : dlookup item.2.number isonum with _ | u
    · rw [blendStep_miss st hu hn]
      exact nodupKeys_dinsert _ _ h
    · rw [blendStep_fb st hu hn]
      exact nodupKeys_dinsert _ _ (nodupKeys_derase _ (nodupKeys_dinsert _ _ h))
  · rw [blendStep_hit isonum st hu]
    exact nodupKeys_dinsert _ _ h

theorem blendLoop_nodup (und : Dict Record) :
    ∀ (l : List (String × Record)) (st : BlendState), NodupKeys st.newdata →
      NodupKeys ((l.foldl (blendStep und (reindex und Record.number)) st).newdata) := by
  intro l st h
  exact foldl_inv _ (fun s : BlendState => NodupKeys s.newdata) l st
    (fun s item _ hh => blendStep_nodup _ _ s item hh) h

theorem blendMissing_patched_mono (und : Dict Record) (st : BlendState) {r : Record}
    (h : r ∈ st.patched) : r ∈ (blendMissing und st).patched := by
  unfold blendMissing
  refine foldl_inv _ (fun s : BlendState => r ∈ s.patched) _ st ?_ h
  intro s kv _ hs
  exact List.mem_append_left _ hs

theorem blendMissing_lookup_preserved (und : Dict Record) (st : BlendState)
    {k : String} {r : Record} (h : dlookup k st.newdata = some r) :
    dlookup k ((blendMissing und st).newdata) = some r := by
  unfold blendMissing
  refine foldl_inv _ (fun s : BlendState => dlookup k s.newdata = some r) _ st ?_ h
  intro s kv hkv hs
  have hne : kv.1 ≠ k := by
    intro hh
    have h2 := (List.mem_filter.mp hkv).2
    rw [hh, h] at h2
    simp at h2
  show dlookup k (dinsert kv.1 (missRec kv.2) s.newdata) = some r
  rw [dlookup_dinsert_ne _ _ (fun hh => hne hh.symm)]
  exact hs

theorem blendMissing_lookup_none (und : Dict Record) (st : BlendState)
    {k : String} (hk : k ∉ dkeys und) (h : dlookup k st.newdata = none) :
    dlookup k ((blendMissing und st).newdata) = none := by
  unfold blendMissing
  refine foldl_inv _ (fun s : BlendState => dlookup k s.newdata = none) _ st ?_ h
  intro s kv hkv hs
  have hne : kv.1 ≠ k := by
    intro hh
    exact hk (hh ▸ mem_keys_of_mem (List.mem_filter.mp hkv).1)
  show dlookup k (dinsert kv.1 (missRec kv.2) s.newdata) = none
  rw [dlookup_dinsert_ne _ _ (fun hh => hne hh.symm)]
  exact hs

theorem blendStep_Q_preserved (und : Dict Record) (hundK : KeyedByIso3 und)
    (hundN : NodupKeys und) {iso3 : String} {undata : Record}
    (hu : dlookup iso3 und = some undata)
    (st : BlendState) (item : String × Record) (hne : item.1 ≠ iso3)
    (hQ : ∃ r, dlookup iso3 st.newdata = some r ∧ r.number = undata.number ∧
      r.name = upcase undata.name ∧ r ∈ st.patched) :
    ∃ r, dlookup iso3 (blendStep und (reindex und Record.number) st item).newdata = some r ∧
      r.number = undata.number ∧ r.name = upcase undata.name ∧
      r ∈ (blendStep und (reindex und Record.number) st item).patched := by
  obtain ⟨r, hr1, hr2, hr3, hr4⟩ := hQ
  rcases hu' : dlookup item.1 und with _ | u'
  · rcases hn' : dlookup item.2.number (reindex und Record.number) with _ | u'
    · rw [blendStep_miss st hu' hn']
      exact ⟨r, by rw [dlookup_dinsert_ne _ _ hne.symm]; exact hr1, hr2, hr3, hr4⟩
    · rw [blendStep_fb st hu' hn']
      have hfb := fb_lookup hundK hundN hn'
      by_cases ht : u'.iso3 = iso3
      · refine ⟨fbRec item.2 u', ?_, ?_, ?_, ?_⟩
        · rw [ht]
          exact dlookup_dinsert_self _ _ _
        · have h2 : dlookup iso3 und = some u' := ht ▸ hfb.2
          rw [hu] at h2
          injection h2 with h2
          show item.2.number = undata.number
          rw [h2]
          exact hfb.1.symm
        · have h2 : dlookup iso3 und = some u' := ht ▸ hfb.2
          rw [hu] at h2
          injection h2 with h2
          show upcase u'.name = upcase undata.name
          rw [h2]
        · exact List.mem_append_right _ (List.mem_singleton.mpr rfl)
      · refine ⟨r, ?_, hr2, hr3, List.mem_append_left _ hr4⟩
        rw [dlookup_dinsert_ne _ _ (fun hh => ht hh.symm),
          dlookup_derase_ne _ hne.symm,
          dlookup_dinsert_ne _ _ (fun hh => ht hh.symm)]
        exact hr1
  · rw [blendStep_hit (reindex und Record.number) st hu']
    refine ⟨r, by rw [dlookup_dinsert_ne _ _ hne.symm]; exact hr1, hr2, hr3, ?_⟩
    by_cases hc : item.2.number ≠ u'.number ∨ item.2.name ≠ upcase u'.name
    · simp only [if_pos hc]
      exact List.mem_append_left _ hr4
    · simp only [if_neg hc]
      exact hr4

theorem blendStep_nc_preserved (und : Dict Record) (hundK : KeyedByIso3 und)
    (hundN : NodupKeys und) {iso3 : String} {undata data : Record}
    (hu : dlookup iso3 und = some undata)
    (hdn : data.number = undata.number) (hdata_iso : data.iso3 = iso3)
    (st : BlendState) (item : String × Record)
    (hne : item.1 ≠ iso3) (hitem_iso : item.2.iso3 = item.1)
    (hnum_ne : item.2.number ≠ data.number)
    (hP : dlookup iso3 st.newdata = some data ∧ ∀ x ∈ st.patched, x ≠ data) :
    dlookup iso3 (blendStep und (reindex und Record.number) st item).newdata = some data ∧
    ∀ x ∈ (blendStep und (reindex und Record.number) st item).patched, x ≠ data := by
  rcases hu' : dlookup item.1 und with _ | u'
  · rcases hn' : dlookup item.2.number (reindex und Record.number) with _ | u'
    · rw [blendStep_miss st hu' hn']
      exact ⟨by rw [dlookup_dinsert_ne _ _ hne.symm]; exact hP.1, hP.2⟩
    · rw [blendStep_fb st hu' hn']
      have hfb := fb_lookup hundK hundN hn'
      have ht : u'.iso3 ≠ iso3 := by
        intro hh
        have h2 : dlookup iso3 und = some u' := hh ▸ hfb.2
        rw [hu] at h2
        injection h2 with h2
        apply hnum_ne
        rw [← hfb.1, ← h2, ← hdn]
      constructor
      · rw [dlookup_dinsert_ne _ _ (fun hh => ht hh.symm),
          dlookup_derase_ne _ hne.symm,
          dlookup_dinsert_ne _ _ (fun hh => ht hh.symm)]
        exact hP.1
      · intro x hx
        rcases List.mem_append.mp hx with h1 | h1
        · exact hP.2 x h1
        · rcases List.mem_singleton.mp h1 with rfl
          intro heq
          apply hnum_ne
          have : (fbRec item.2 u').number = item.2.number := rfl
          rw [heq] at this
          exact this.symm
  · rw [blendStep_hit (reindex und Record.number) st hu']
    refine ⟨by rw [dlookup_dinsert_ne _ _ hne.symm]; exact hP.1, ?_⟩
    by_cases hcc : item.2.number ≠ u'.number ∨ item.2.name ≠ upcase u'.name
    · simp only [if_pos hcc]
      intro x hx
      rcases List.mem_append.mp hx with h1 | h1
      · exact hP.2 x h1
      · rcases List.mem_singleton.mp h1 with rfl
        intro heq
        apply hne
        have : (mergeRec item.2 u').iso3 = item.1 := hitem_iso
        rw [heq, hdata_iso] at this
        exact this.symm
    · simp only [if_neg hcc]
      exact hP.2

theorem blendMissing_nc (und : Dict Record) (hundK : KeyedByIso3 und) (st : BlendState)
    {iso3 : String} {data : Record} (hdata_iso : data.iso3 = iso3)
    (hP : dlookup iso3 st.newdata = some data ∧ ∀ x ∈ st.patched, x ≠ data) :
    dlookup iso3 ((blendMissing und st).newdata) = some data ∧
    ∀ x ∈ (blendMissing und st).patched, x ≠ data := by
  unfold blendMissing
  refine foldl_inv _
    (fun s : BlendState => dlookup iso3 s.newdata = some data ∧ ∀ x ∈ s.patched, x ≠ data)
    _ st ?_ hP
  intro s kv hkv hs
  have hne : kv.1 ≠ iso3 := by
    intro hh
    have h2 := (List.mem_filter.mp hkv).2
    rw [hh, hP.1] at h2
    simp at h2
  constructor
  · show dlookup iso3 (dinsert kv.1 (missRec kv.2) s.newdata) = some data
    rw [dlookup_dinsert_ne _ _ (fun hh => hne hh.symm)]
    exact hs.1
  · intro x hx
    rcases List.mem_append.mp hx with h1 | h1
    · exact hs.2 x h1
    · rcases List.mem_singleton.mp h1 with rfl
      intro heq
      apply hne
      have h3 : (missRec kv.2).iso3 = kv.1 := hundK kv (List.mem_filter.mp hkv).1
      rw [heq, hdata_iso] at h3
      exact h3.symm

/-- C1: in the Blender, a broad record whose ISO3 also exists in the
primary dict ends up (under well-formed source dicts: records keyed by
their own ISO3, distinct keys, distinct broad numbers) with the
primary's number and the primary's name uppercased under that ISO3, and
the blended record for that ISO3 is in the patched list exactly when
the number or the uppercased name differed from the broad original. -/
theorem C1_blend_primary_overwrite (und wad : Dict Record)
    (hundK : KeyedByIso3 und) (hundN : NodupKeys und)
    (hwadK : KeyedByIso3 wad) (hwadN : NodupKeys wad)
    (hwadNum : NumbersNodup wad)
    (iso3 : String) (undata data : Record)
    (hu : dlookup iso3 und = some undata)
    (hw : dlookup iso3 wad = some data) :
    ∃ r, dlookup iso3 (blend_un_wad und wad).1 = some r ∧
      r.number = undata.number ∧ r.name = upcase undata.name ∧
      (r ∈ (blend_un_wad und wad).2 ↔
        (data.number ≠ undata.number ∨ data.name ≠ upcase undata.name)) := by
  by_cases hc : data.number ≠ undata.number ∨ data.name ≠ upcase undata.name
  · obtain ⟨pre, post, hsplit, hpre⟩ := dlookup_split hw
    have hpost : iso3 ∉ dkeys post := by
      have hkeys : dkeys wad = dkeys pre ++ iso3 :: dkeys post := by
        rw [hsplit]
        simp [dkeys]
      have hnd := hwadN
      unfold NodupKeys at hnd
      rw [hkeys] at hnd
      have := (List.nodup_append.mp hnd).2.1
      exact (List.nodup_cons.mp this).1
    have hloop : blendLoop und wad =
        post.foldl (blendStep und (reindex und Record.number))
          (blendStep und (reindex und Record.number)
            (pre.foldl (blendStep und (reindex und Record.number))
              { newdata := wad, patched := [] }) (iso3, data)) := by
      unfold blendLoop
      rw [hsplit, List.foldl_append, List.foldl_cons]
    have hQ2 : ∃ r, dlookup iso3
        (blendStep und (reindex und Record.number)
          (pre.foldl (blendStep und (reindex und Record.number))
            { newdata := wad, patched := [] }) (iso3, data)).newdata = some r ∧
        r.number = undata.number ∧ r.name = upcase undata.name ∧
        r ∈ (blendStep und (reindex und Record.number)
          (pre.foldl (blendStep und (reindex und Record.number))
            { newdata := wad, patched := [] }) (iso3, data)).patched := by
      rw [blendStep_hit (reindex und Record.number) _ hu]
      refine ⟨mergeRec data undata, dlookup_dinsert_self _ _ _, rfl, rfl, ?_⟩
      dsimp only
      rw [if_pos hc]
      exact List.mem_append_right _ (List.mem_singleton.mpr rfl)
    have hQL : ∃ r, dlookup iso3 (blendLoop und wad).newdata = some r ∧
        r.number = undata.number ∧ r.name = upcase undata.name ∧
        r ∈ (blendLoop und wad).patched := by
      rw [hloop]
      refine foldl_inv _
        (fun s : BlendState => ∃ r, dlookup iso3 s.newdata = some r ∧
          r.number = undata.number ∧ r.name = upcase undata.name ∧ r ∈ s.patched)
        post _ ?_ hQ2
      intro s item hitem hQ
      have hne : item.1 ≠ iso3 := by
        intro hh
        exact hpost (hh ▸ mem_keys_of_mem hitem)
      exact blendStep_Q_preserved und hundK hundN hu s item hne hQ
    obtain ⟨r, h1, h2, h3, h4⟩ := hQL
    refine ⟨r, blendMissing_lookup_preserved _ _ h1, h2, h3, ?_⟩
    exact iff_of_true (blendMissing_patched_mono _ _ h4) hc
  · have hcc := hc
    push_neg at hcc
    have hdata_iso : data.iso3 = iso3 := hwadK (iso3, data) (mem_of_dlookup hw)
    have hinj := List.inj_on_of_nodup_map hwadNum
    have hmemdata : (iso3, data) ∈ wad := mem_of_dlookup hw
    have hPL : dlookup iso3 (blendLoop und wad).newdata = some data ∧
        ∀ x ∈ (blendLoop und wad).patched, x ≠ data := by
      unfold blendLoop
      refine foldl_inv _
        (fun s : BlendState => dlookup iso3 s.newdata = some data ∧
          ∀ x ∈ s.patched, x ≠ data)
        wad { newdata := wad, patched := [] } ?_ ⟨hw, by intro x hx; simp at hx⟩
      intro s item hitem hP
      by_cases hiseq : item = (iso3, data)
      · subst hiseq
        rw [blendStep_hit (reindex und Record.number) s hu]
        have hcond : ¬((iso3, data).2.number ≠ undata.number ∨
            (iso3, data).2.name ≠ upcase undata.name) := hc
        rw [if_neg hcond]
        refine ⟨?_, hP.2⟩
        have hmr : mergeRec (iso3, data).2 undata = data := mergeRec_self hcc.1 hcc.2
        rw [hmr]
        exact dlookup_dinsert_self _ _ _
      · have hne : item.1 ≠ iso3 := by
          intro hh
          apply hiseq
          have hlk : dlookup item.1 wad = some item.2 := dlookup_of_mem_nodup hwadN hitem
          rw [hh, hw] at hlk
          injection hlk with hlk
          obtain ⟨i1, i2⟩ := item
          simp only at hh hlk
          rw [hh, ← hlk]
        have hnum_ne : item.2.number ≠ data.number := by
          intro hh
          exact hiseq (hinj hitem hmemdata hh)
        exact blendStep_nc_preserved und hundK hundN hu hcc.1 hdata_iso s item hne
          (hwadK item hitem) hnum_ne hP
    have hPM := blendMissing_nc und hundK (blendLoop und wad) hdata_iso hPL
    refine ⟨data, hPM.1, hcc.1, hcc.2, ?_⟩
    exact iff_of_false (fun hmem => (hPM.2 data hmem) rfl) hc

/-- C1 witness at the spec's own example: primary
`(ABC, 004, Foo)` against broad `(ABC, 005, FOO BAR)`. -/
theorem C1_witness :
    ∃ r, dlookup "ABC" (blend_un_wad
        [("ABC", (⟨none, "ABC", "004", "Foo", none, none, none, none, none⟩ : Record))]
        [("ABC", (⟨some "AB", "ABC", "005", "FOO BAR", none, none, none, none, none⟩ : Record))]).1
        = some r ∧
      r.number = "004" ∧ r.name = upcase "Foo" ∧
      (r ∈ (blend_un_wad
        [("ABC", (⟨none, "ABC", "004", "Foo", none, none, none, none, none⟩ : Record))]
        [("ABC", (⟨some "AB", "ABC", "005", "FOO BAR", none, none, none, none, none⟩ : Record))]).2 ↔
        (("005" : String) ≠ "004" ∨ ("FOO BAR" : String) ≠ upcase "Foo")) :=
  C1_blend_primary_overwrite
    [("ABC", (⟨none, "ABC", "004", "Foo", none, none, none, none, none⟩ : Record))]
    [("ABC", (⟨some "AB", "ABC", "005", "FOO BAR", none, none, none, none, none⟩ : Record))]
    (by unfold KeyedByIso3; decide) (by unfold NodupKeys; decide)
    (by unfold KeyedByIso3; decide) (by unfold NodupKeys; decide)
    (by unfold NumbersNodup; decide) "ABC"
    ⟨none, "ABC", "004", "Foo", none, none, none, none, none⟩
    ⟨some "AB", "ABC", "005", "FOO BAR", none, none, none, none, none⟩
    (by decide) (by decide)

theorem blendStep_C7_preserved (und : Dict Record) (hundK : KeyedByIso3 und)
    (hundN : NodupKeys und) {k : String} {data undata : Record}
    (hkund : k ∉ dkeys und)
    (hnum : dlookup data.number (reindex und Record.number) = some undata)
    (st : BlendState) (item : String × Record)
    (hne_t : item.1 ≠ undata.iso3) (hne_k : item.1 ≠ k)
    (hnum_ne : item.2.number ≠ data.number)
    (hP : dlookup undata.iso3 st.newdata = some (fbRec data undata) ∧
      dlookup k st.newdata = none ∧ fbRec data undata ∈ st.patched) :
    dlookup undata.iso3 (blendStep und (reindex und Record.number) st item).newdata
      = some (fbRec data undata) ∧
    dlookup k (blendStep und (reindex und Record.number) st item).newdata = none ∧
    fbRec data undata ∈ (blendStep und (reindex und Record.number) st item).patched := by
  have hfb0 := fb_lookup hundK hundN hnum
  rcases hu' : dlookup item.1 und with _ | u'
  · rcases hn' : dlookup item.2.number (reindex und Record.number) with _ | u'
    · rw [blendStep_miss st hu' hn']
      exact ⟨by rw [dlookup_dinsert_ne _ _ (Ne.symm hne_t)]; exact hP.1,
        by rw [dlookup_dinsert_ne _ _ (Ne.symm hne_k)]; exact hP.2.1, hP.2.2⟩
    · rw [blendStep_fb st hu' hn']
      have hfb' := fb_lookup hundK hundN hn'
      have ht' : u'.iso3 ≠ undata.iso3 := by
        intro hh
        have h2 : dlookup undata.iso3 und = some u' := hh ▸ hfb'.2
        rw [hfb0.2] at h2
        injection h2 with h2
        apply hnum_ne
        rw [← hfb'.1, ← h2]
        exact hfb0.1
      have hk' : u'.iso3 ≠ k := by
        intro hh
        apply hkund
        rw [← hh]
        exact dlookup_isSome_iff.mp (by rw [hfb'.2]; rfl)
      refine ⟨?_, ?_, List.mem_append_left _ hP.2.2⟩
      · rw [dlookup_dinsert_ne _ _ (Ne.symm ht'),
          dlookup_derase_ne _ (Ne.symm hne_t),
          dlookup_dinsert_ne _ _ (Ne.symm ht')]
        exact hP.1
      · rw [dlookup_dinsert_ne _ _ (Ne.symm hk')]
        apply dlookup_derase_none
        rw [dlookup_dinsert_ne _ _ (Ne.symm hk')]
        exact hP.2.1
  · rw [blendStep_hit (reindex und Record.number) st hu']
    refine ⟨by rw [dlookup_dinsert_ne _ _ (Ne.symm hne_t)]; exact hP.1,
      by rw [dlookup_dinsert_ne _ _ (Ne.symm hne_k)]; exact hP.2.1, ?_⟩
    by_cases hcc : item.2.number ≠ u'.number ∨ item.2.name ≠ upcase u'.name
    · simp only [if_pos hcc]
      exact List.mem_append_left _ hP.2.2
    · simp only [if_neg hcc]
      exact hP.2.2

/-- C7: numeric-code fallback of the Blender — a broad record whose
ISO3 is absent from the primary dict but whose number is found in the
primary's number index is re-keyed (under well-formed source dicts and
a primary ISO3 absent from the broad dict) to the primary's ISO3 with
its `iso3` field updated and its name set to the primary's uppercased
name; its old key is gone from the blended output and the re-keyed
record is in the patched list. -/
theorem C7_blend_number_fallback (und wad : Dict Record)
    (hundK : KeyedByIso3 und) (hundN : NodupKeys und)
    (hwadN : NodupKeys wad) (hwadNum : NumbersNodup wad)
    (k : String) (data undata : Record)
    (hmem : dlookup k wad = some data)
    (hmiss : dlookup k und = none)
    (hnum : dlookup data.number (reindex und Record.number) = some undata)
    (hfresh : dlookup undata.iso3 wad = none) :
    dlookup undata.iso3 (blend_un_wad und wad).1 = some (fbRec data undata) ∧
    dlookup k (blend_un_wad und wad).1 = none ∧
    fbRec data undata ∈ (blend_un_wad und wad).2 := by
  have hfb0 := fb_lookup hundK hundN hnum
  have hkund : k ∉ dkeys und := dlookup_eq_none_iff.mp hmiss
  have htk : undata.iso3 ≠ k := by
    intro hh
    apply hkund
    rw [← hh]
    exact dlookup_isSome_iff.mp (by rw [hfb0.2]; rfl)
  have htwad : undata.iso3 ∉ dkeys wad := dlookup_eq_none_iff.mp hfresh
  obtain ⟨pre, post, hsplit, hpre⟩ := dlookup_split hmem
  have hkpost : k ∉ dkeys post := by
    have hkeys : dkeys wad = dkeys pre ++ k :: dkeys post := by
      rw [hsplit]
      simp [dkeys]
    have hnd := hwadN
    unfold NodupKeys at hnd
    rw [hkeys] at hnd
    have := (List.nodup_append.mp hnd).2.1
    exact (List.nodup_cons.mp this).1
  have hinj := List.inj_on_of_nodup_map hwadNum
  have hmemdata : (k, data) ∈ wad := mem_of_dlookup hmem
  have hloop_eq : blendLoop und wad =
      post.foldl (blendStep und (reindex und Record.number))
        (blendStep und (reindex und Record.number)
          (pre.foldl (blendStep und (reindex und Record.number))
            { newdata := wad, patched := [] }) (k, data)) := by
    unfold blendLoop
    rw [hsplit, List.foldl_append, List.foldl_cons]
  have hnd1 : NodupKeys ((pre.foldl (blendStep und (reindex und Record.number))
      { newdata := wad, patched := [] }).newdata) :=
    blendLoop_nodup und pre { newdata := wad, patched := [] } hwadN
  have hstep : dlookup undata.iso3
      (blendStep und (reindex und Record.number)
        (pre.foldl (blendStep und (reindex und Record.number))
          { newdata := wad, patched := [] }) (k, data)).newdata
        = some (fbRec data undata) ∧
      dlookup k (blendStep und (reindex und Record.number)
        (pre.foldl (blendStep und (reindex und Record.number))
          { newdata := wad, patched := [] }) (k, data)).newdata = none ∧
      fbRec data undata ∈ (blendStep und (reindex und Record.number)
        (pre.foldl (blendStep und (reindex und Record.number))
          { newdata := wad, patched := [] }) (k, data)).patched := by
    rw [blendStep_fb _ hmiss hnum]
    refine ⟨dlookup_dinsert_self _ _ _, ?_,
      List.mem_append_right _ (List.mem_singleton.mpr rfl)⟩
    rw [dlookup_dinsert_ne _ _ (Ne.symm htk)]
    exact dlookup_derase_self (nodupKeys_dinsert _ _ hnd1)
  have hPL : dlookup undata.iso3 (blendLoop und wad).newdata = some (fbRec data undata) ∧
      dlookup k (blendLoop und wad).newdata = none ∧
      fbRec data undata ∈ (blendLoop und wad).patched := by
    rw [hloop_eq]
    refine foldl_inv _
      (fun s : BlendState => dlookup undata.iso3 s.newdata = some (fbRec data undata) ∧
        dlookup k s.newdata = none ∧ fbRec data undata ∈ s.patched)
      post _ ?_ hstep
    intro s item hitem hP
    have hitem_wad : item ∈ wad := by
      rw [hsplit]
      exact List.mem_append_right _ (List.mem_cons_of_mem _ hitem)
    have hne_t : item.1 ≠ undata.iso3 := by
      intro hh
      exact htwad (hh ▸ mem_keys_of_mem hitem_wad)
    have hne_k : item.1 ≠ k := by
      intro hh
      exact hkpost (hh ▸ mem_keys_of_mem hitem)
    have hnum_ne : item.2.number ≠ data.number := by
      intro hh
      have heq := hinj hitem_wad hmemdata hh
      apply hkpost
      have := mem_keys_of_mem hitem
      rw [heq] at this
      exact this
    exact blendStep_C7_preserved und hundK hundN hkund hnum s item hne_t hne_k hnum_ne hP
  exact ⟨blendMissing_lookup_preserved _ _ hPL.1,
    blendMissing_lookup_none _ _ hkund hPL.2.1,
    blendMissing_patched_mono _ _ hPL.2.2⟩

/-- C7 witness: the East-Timor-style discrepancy — broad `(TMP, 626)`
re-keys to primary `TLS` by number. -/
theorem C7_witness :
    dlookup "TLS" (blend_un_wad
      [("TLS", (⟨none, "TLS", "626", "Timor-Leste", none, none, none, none, none⟩ : Record))]
      [("TMP", (⟨some "TP", "TMP", "626", "EAST TIMOR", none, none, none, none, none⟩ : Record))]).1
      = some (fbRec ⟨some "TP", "TMP", "626", "EAST TIMOR", none, none, none, none, none⟩
          ⟨none, "TLS", "626", "Timor-Leste", none, none, none, none, none⟩) ∧
    dlookup "TMP" (blend_un_wad
      [("TLS", (⟨none, "TLS", "626", "Timor-Leste", none, none, none, none, none⟩ : Record))]
      [("TMP", (⟨some "TP", "TMP", "626", "EAST TIMOR", none, none, none, none, none⟩ : Record))]).1
      = none ∧
    fbRec ⟨some "TP", "TMP", "626", "EAST TIMOR", none, none, none, none, none⟩
        ⟨none, "TLS", "626", "Timor-Leste", none, none, none, none, none⟩
      ∈ (blend_un_wad
      [("TLS", (⟨none, "TLS", "626", "Timor-Leste", none, none, none, none, none⟩ : Record))]
      [("TMP", (⟨some "TP", "TMP", "626", "EAST TIMOR", none, none, none, none, none⟩ : Record))]).2 :=
  C7_blend_number_fallback
    [("TLS", (⟨none, "TLS", "626", "Timor-Leste", none, none, none, none, none⟩ : Record))]
    [("TMP", (⟨some "TP", "TMP", "626", "EAST TIMOR", none, none, none, none, none⟩ : Record))]
    (by unfold KeyedByIso3; decide) (by unfold NodupKeys; decide)
    (by unfold NodupKeys; decide) (by unfold NumbersNodup; decide)
    "TMP"
    ⟨some "TP", "TMP", "626", "EAST TIMOR", none, none, none, none, none⟩
    ⟨none, "TLS", "626", "Timor-Leste", none, none, none, none, none⟩
    (by decide) (by decide) (by decide) (by decide)

/-! ### Code Augmenter: number splitting (C2) -/

theorem mapOpt_length {α β : Type} (f : α → Option β) :
    ∀ {l : List α} {bs : List β}, mapOpt f l = some bs → bs.length = l.length := by
  intro l
  induction l with
  | nil =>
    intro bs h
    simp only [mapOpt] at h
    injection h with h
    rw [← h]
    rfl
  | cons a l ih =>
    intro bs h
    simp only [mapOpt] at h
    rcases hf : f a with _ | b
    · rw [hf] at h
      exact absurd h (by simp)
    · rcases hm : mapOpt f l with _ | bs'
      · rw [hf, hm] at h
        exact absurd h (by simp)
      · rw [hf, hm] at h
        injection h with h
        rw [← h]
        simp [ih hm]

theorem mapOpt_some_of_all {α β : Type} (f : α → Option β) :
    ∀ {l : List α}, (∀ a ∈ l, (f a).isSome) → ∃ bs, mapOpt f l = some bs := by
  intro l
  induction l with
  | nil => intro _; exact ⟨[], rfl⟩
  | cons a l ih =>
    intro h
    rcases hf : f a with _ | b
    · have := h a (List.mem_cons_self _ _)
      rw [hf] at this
      simp at this
    · obtain ⟨bs, hbs⟩ := ih (fun a' ha' => h a' (List.mem_cons_of_mem _ ha'))
      exact ⟨b :: bs, by simp only [mapOpt, hf, hbs]⟩

theorem mapOpt_none_of_mem {α β : Type} (f : α → Option β) :
    ∀ {l : List α} {a : α}, a ∈ l → f a = none → mapOpt f l = none := by
  intro l
  induction l with
  | nil => intro a h _; simp at h
  | cons a' l ih =>
    intro a h hf
    rcases List.mem_cons.mp h with h1 | h1
    · subst h1
      simp only [mapOpt, hf]
    · simp only [mapOpt]
      rw [ih h1 hf]
      rcases f a' with _ | b <;> rfl

/-- C2 as frozen is false: in `["+1", "+1 242"]` the second entry has a
second token `"242"`, so the claim requires `region_a = "242"`, but the
code only collects region codes when the *first* entry has a second
token — the result carries no region fields at all. -/
theorem C2_counterexample :
    splitNumbers ["+1", "+1 242"] = some ⟨"1", none, none, none, none⟩ ∧
    (splitNumbers ["+1", "+1 242"]).map SplitResult.region_a ≠ some (some "242") := by
  constructor
  · decide
  · decide

/-- Reduction of `splitNumbers` on a non-empty list whose first entry
splits into `idc :: ts`. -/
theorem splitNumbers_cons_eq (x : String) (xs : List String)
    (idc : String) (ts : List String) (h0 : stripTokens x = idc :: ts) :
    splitNumbers (x :: xs) =
      if (idc :: ts).length > 1 then
        match mapOpt (fun t => t[1]?) ((idc :: ts) :: xs.map stripTokens) with
        | none => none
        | some regionCodes =>
          if regionCodes.length > 4 then none
          else some { idc := idc, region_a := regionCodes[0]?, region_b := regionCodes[1]?,
                      region_c := regionCodes[2]?, region_d := regionCodes[3]? }
      else
        some { idc := idc, region_a := none, region_b := none,
               region_c := none, region_d := none } := by
  unfold splitNumbers
  rw [List.map_cons, h0]

/-- C2 (amended): for a non-empty input list whose first entry splits
into `idc :: ts`: if `ts` is empty the result is just the idc with no
region fields, even when later entries carry second tokens; if `ts` is
non-empty then (a) when every entry has a second token and there are at
most four entries, the second tokens fill `region_a`..`region_d` in
source order, (b) when some entry lacks a second token the call raises
(`x.pop(1)` IndexError), and (c) when there are five or more entries
the call raises (`regions.pop(0)` on an empty list) instead of silently
dropping the fifth. -/
theorem C2_split_numbers_amended (x : String) (xs : List String)
    (idc : String) (ts : List String)
    (h0 : stripTokens x = idc :: ts) :
    (ts = [] → splitNumbers (x :: xs) = some ⟨idc, none, none, none, none⟩) ∧
    (ts ≠ [] →
      ((∀ t ∈ (x :: xs).map stripTokens, 1 < t.length) → (x :: xs).length ≤ 4 →
        ∃ rcs, mapOpt (fun t => t[1]?) ((x :: xs).map stripTokens) = some rcs ∧
          splitNumbers (x :: xs) = some ⟨idc, rcs[0]?, rcs[1]?, rcs[2]?, rcs[3]?⟩) ∧
      ((∃ t ∈ (x :: xs).map stripTokens, t.length ≤ 1) →
        splitNumbers (x :: xs) = none) ∧
      (4 < (x :: xs).length → splitNumbers (x :: xs) = none)) := by
  have hmap : (x :: xs).map stripTokens = (idc :: ts) :: xs.map stripTokens := by
    rw [List.map_cons, h0]
  rw [splitNumbers_cons_eq x xs idc ts h0]
  constructor
  · intro hts
    subst hts
    rw [if_neg (by simp)]
  · intro hts
    have hlen1 : (idc :: ts).length > 1 := by
      cases ts with
      | nil => exact absurd rfl hts
      | cons a l => simp
    rw [if_pos hlen1]
    refine ⟨?_, ?_, ?_⟩
    · intro hall hle
      have hsome : ∀ t ∈ (x :: xs).map stripTokens, ((fun t : List String => t[1]?) t).isSome := by
        intro t ht
        rcases hgt : t[1]? with _ | v
        · have := List.getElem?_eq_none_iff.mp hgt
          exact absurd (hall t ht) (by omega)
        · simp [hgt]
      obtain ⟨rcs, hrcs⟩ := mapOpt_some_of_all _ hsome
      refine ⟨rcs, hrcs, ?_⟩
      have hlenr : rcs.length = (x :: xs).length := by
        rw [mapOpt_length _ hrcs]
        simp
      have hle4 : ¬(rcs.length > 4) := by omega
      rw [hmap] at hrcs
      rw [hrcs]
      dsimp only
      rw [if_neg hle4]
    · intro hshort
      obtain ⟨t, ht, hlt⟩ := hshort
      have hnone : (fun t : List String => t[1]?) t = none :=
        List.getElem?_eq_none hlt
      have hmn := mapOpt_none_of_mem (fun t : List String => t[1]?) ht hnone
      rw [hmap] at hmn
      rw [hmn]
    · intro hgt4
      rcases hm : mapOpt (fun t : List String => t[1]?) ((x :: xs).map stripTokens)
        with _ | rcs
      · rw [hmap] at hm
        rw [hm]
      · have hlenr : rcs.length = (x :: xs).length := by
          rw [mapOpt_length _ hm]
          simp
        have hgt : rcs.length > 4 := by omega
        rw [hmap] at hm
        rw [hm]
        dsimp only
        rw [if_pos hgt]

/-- C2 witness at the spec's own example `["+1 242", "+1 246"]`:
idc `1`, regions `242` and `246`. -/
theorem C2_witness :
    splitNumbers ["+1 242", "+1 246"] = some ⟨"1", some "242", some "246", none, none⟩ := by
  obtain ⟨rcs, hrcs, hres⟩ :=
    ((C2_split_numbers_amended "+1 242" ["+1 246"] "1" ["242"] (by decide)).2
      (by decide)).1 (by decide) (by decide)
  have hval : mapOpt (fun t : List String => t[1]?)
      ((["+1 242", "+1 246"]).map stripTokens) = some ["242", "246"] := by decide
  rw [hval] at hrcs
  injection hrcs with hrcs
  subst hrcs
  exact hres

/-! ### Code Augmenter: name matching and frame (C6, C10) -/

/-- C6: a `(country, numbers)` pair whose alias-substituted name has no
exact match in the name index and zero or several substring candidates
leaves the blended dict untouched and raises nothing — the loop body of
`map_numbers` returns the state unchanged. -/
theorem C6_map_numbers_ambiguous (byname : Dict String) (blended : Dict Record)
    (pair : String × List String)
    (hmiss : dlookup (aliasName pair.1) byname = none)
    (hamb : ((dkeys byname).filter
      (fun c => strContains c (aliasName pair.1))).length ≠ 1) :
    mapNumbersStep byname blended pair = some blended := by
  unfold mapNumbersStep
  rw [hmiss]
  rcases hp : (dkeys byname).filter (fun c => strContains c (aliasName pair.1))
    with _ | ⟨a, _ | ⟨b, l⟩⟩
  · rfl
  · rw [hp] at hamb
    simp at hamb
  · rfl

/-- C6 witness: `"SAINT MARTIN"` against blended names
`"SAINT MARTIN (FRENCH PART)"` and `"SAINT MARTIN (DUTCH PART)"`:
no exact match, two substring candidates, no augmentation. -/
theorem C6_witness :
    mapNumbersStep
      [("SAINT MARTIN (FRENCH PART)", "MAF"), ("SAINT MARTIN (DUTCH PART)", "SXM")]
      [("MAF", ⟨none, "MAF", "663", "SAINT MARTIN (FRENCH PART)", none, none, none, none, none⟩)]
      ("SAINT MARTIN", ["+590"]) =
    some [("MAF", ⟨none, "MAF", "663", "SAINT MARTIN (FRENCH PART)", none, none, none, none, none⟩)] :=
  C6_map_numbers_ambiguous _ _ _ (by decide) (by decide)

theorem frameRel_refl (p : String × Record) : frameRel p p :=
  ⟨rfl, rfl, rfl, rfl, rfl⟩

theorem forall₂_frameRel_refl : ∀ (l : Dict Record), List.Forall₂ frameRel l l := by
  intro l
  induction l with
  | nil => exact List.Forall₂.nil
  | cons p l ih => exact List.Forall₂.cons (frameRel_refl p) ih

theorem forall₂_frameRel_trans : ∀ {l m n : Dict Record},
    List.Forall₂ frameRel l m → List.Forall₂ frameRel m n →
    List.Forall₂ frameRel l n := by
  intro l m n h1
  induction h1 generalizing n with
  | nil =>
    intro h2
    cases h2
    exact List.Forall₂.nil
  | cons hr h ih =>
    intro h2
    cases h2 with
    | cons hr2 h2 =>
      exact List.Forall₂.cons
        ⟨hr.1.trans hr2.1, hr.2.1.trans hr2.2.1, hr.2.2.1.trans hr2.2.2.1,
         hr.2.2.2.1.trans hr2.2.2.2.1, hr.2.2.2.2.trans hr2.2.2.2.2⟩ (ih h2)

theorem updAt_frame (blended : Dict Record) (key : String) (s : SplitResult) :
    List.Forall₂ frameRel blended (updAt blended key s) := by
  induction blended with
  | nil => exact List.Forall₂.nil
  | cons p l ih =>
    unfold updAt at ih ⊢
    simp only [List.map_cons]
    refine List.Forall₂.cons ?_ ih
    by_cases h : p.1 = key
    · simp only [if_pos h]
      exact ⟨rfl, rfl, rfl, rfl, rfl⟩
    · simp only [if_neg h]
      exact frameRel_refl p

theorem mapNumbersStep_frame (byname : Dict String) (blended : Dict Record)
    (pair : String × List String) (out : Dict Record)
    (h : mapNumbersStep byname blended pair = some out) :
    List.Forall₂ frameRel blended out := by
  unfold mapNumbersStep at h
  rcases hl : dlookup (aliasName pair.1) byname with _ | key
  · rw [hl] at h
    dsimp only at h
    rcases hp : (dkeys byname).filter (fun c => strContains c (aliasName pair.1))
      with _ | ⟨a, _ | ⟨b, l⟩⟩
    · rw [hp] at h
      injection h with h
      rw [← h]
      exact forall₂_frameRel_refl _
    · rw [hp] at h
      dsimp only at h
      rcases hk : dlookup a byname with _ | key
      · rw [hk] at h
        injection h with h
        rw [← h]
        exact forall₂_frameRel_refl _
      · rw [hk] at h
        dsimp only at h
        rcases hs : splitNumbers pair.2 with _ | s
        · rw [hs] at h
          exact absurd h (by simp)
        · rw [hs] at h
          injection h with h
          rw [← h]
          exact updAt_frame _ _ _
    · rw [hp] at h
      injection h with h
      rw [← h]
      exact forall₂_frameRel_refl _
  · rw [hl] at h
    dsimp only at h
    rcases hs : splitNumbers
        (if aliasName pair.1 = "HOLY SEE (VATICAN CITY STATE)" then ["+39 066"]
         else pair.2) with _ | s
    · rw [hs] at h
      exact absurd h (by simp)
    · rw [hs] at h
      injection h with h
      rw [← h]
      exact updAt_frame _ _ _

theorem foldOpt_frame : ∀ (l : Dict (List String)) (byname : Dict String)
    (blended out : Dict Record),
    foldOpt (mapNumbersStep byname) blended l = some out →
    List.Forall₂ frameRel blended out := by
  intro l
  induction l with
  | nil =>
    intro byname b out h
    simp only [foldOpt] at h
    injection h with h
    rw [← h]
    exact forall₂_frameRel_refl _
  | cons p l ih =>
    intro byname b out h
    simp only [foldOpt] at h
    rcases hs : mapNumbersStep byname b p with _ | b'
    · rw [hs] at h
      exact absurd h (by simp)
    · rw [hs] at h
      exact forall₂_frameRel_trans (mapNumbersStep_frame _ _ _ _ hs) (ih _ _ _ h)

/-- C10: frame property of `map_numbers` — when it returns (raises no
exception), the blended dict has pointwise the same keys (so no entry
is removed, added or re-keyed) and every record keeps its `iso3`,
`iso2`, `number` and `name`; only `idc` and `region_a`..`region_d` can
have changed. -/
theorem C10_map_numbers_frame (blended : Dict Record) (ccs : Dict (List String))
    (out : Dict Record) (h : mapNumbers blended ccs = some out) :
    List.Forall₂ frameRel blended out :=
  foldOpt_frame ccs (indexByName blended) blended out h

/-- C10 witness: a concrete augmentation run only sets `idc`. -/
theorem C10_witness :
    List.Forall₂ frameRel
      [("FRA", (⟨some "FR", "FRA", "250", "FRANCE", none, none, none, none, none⟩ : Record))]
      [("FRA", (⟨some "FR", "FRA", "250", "FRANCE", some "33", none, none, none, none⟩ : Record))] :=
  C10_map_numbers_frame
    [("FRA", (⟨some "FR", "FRA", "250", "FRANCE", none, none, none, none, none⟩ : Record))]
    [("FRANCE", ["+33"])]
    [("FRA", (⟨some "FR", "FRA", "250", "FRANCE", some "33", none, none, none, none⟩ : Record))]
    (by decide)

/-- C9: with the ignore flag set, every entry of the final mapping of
`make_dataset` has a present, non-empty `idc` field — the filtering
step deleted every entry whose `idc` was absent or empty. -/
theorem C9_filter_nonempty_idc (und wad : Dict Record) (ccs : Dict (List String))
    (out : Dict Record) (p : String × Record)
    (hrun : make_dataset und wad ccs true = some out) (hmem : p ∈ out) :
    ∃ s, p.2.idc = some s ∧ s ≠ "" := by
  unfold make_dataset at hrun
  rcases hm : mapNumbers (blend_un_wad und wad).1 ccs with _ | blend
  · rw [hm] at hrun
    exact absurd hrun (by simp)
  · rw [hm] at hrun
    dsimp only at hrun
    injection hrun with hrun
    rw [← hrun] at hmem
    rw [if_pos rfl] at hmem
    have h2 := (List.mem_filter.mp hmem).2
    rw [bne_iff_ne] at h2
    rcases hi : p.2.idc with _ | s
    · rw [hi] at h2
      simp at h2
    · rw [hi] at h2
      simp only [Option.getD_some] at h2
      exact ⟨s, rfl, h2⟩

/-- C9 witness on a concrete end-to-end run. -/
theorem C9_witness :
    ∃ s, (⟨some "FR", "FRA", "250", "FRANCE", some "33", none, none, none,
      none⟩ : Record).idc = some s ∧ s ≠ "" :=
  C9_filter_nonempty_idc
    [("FRA", ⟨none, "FRA", "250", "France", none, none, none, none, none⟩)]
    [("FRA", ⟨some "FR", "FRA", "250", "FRANCE", none, none, none, none, none⟩)]
    [("FRANCE", ["+33"])]
    [("FRA", ⟨some "FR", "FRA", "250", "FRANCE", some "33", none, none, none, none⟩)]
    ("FRA", ⟨some "FR", "FRA", "250", "FRANCE", some "33", none, none, none, none⟩)
    (by decide) (by decide)
